import Mathlib

/-!
Verification of the expression-matcher core of
`misc/python/materialize/output_consistency/ignore_filter/expression_matchers.py`.

The matcher functions themselves are translated directly from that file.
The `Expression`, `Operation` (`DbFunction` / `DbOperation`) and
`QueryTemplate` collaborators are not part of the source fragment; they are
modelled from the spec's data model and external-interface sections.
-/

/-- Modelled from the spec: `Operation` is polymorphic over two variants —
`DbFunction` identified by a case-normalized (lower-case) name, and
`DbOperation` identified by a symbolic pattern string.  The classes
`DbFunction` / `DbOperation` are imported collaborators, absent from the
source fragment. -/
inductive Operation where
  | DbFunction (function_name_in_lower_case : String)
  | DbOperation (pattern : String)
deriving DecidableEq, Repr

/-- Modelled from the spec: an `Expression` is a node in an immutable tree,
polymorphic over two variants — a terminal `leaf` (constant or column
reference, carrying some payload) and a composite `withArgs`
(`ExpressionWithArgs`) holding one `Operation` and an ordered sequence of
child expressions.  The `Expression` / `ExpressionWithArgs` classes are
imported collaborators, absent from the source fragment. -/
inductive Expression where
  | leaf (payload : Nat)
  | withArgs (operation : Operation) (args : List Expression)
deriving Repr

/-- Modelled from the spec: `is_leaf()` is true exactly on the `leaf`
variant and false on composites. -/
def Expression.is_leaf : Expression → Bool
  | .leaf _ => true
  | .withArgs _ _ => false

/-- Modelled from the spec: a `QueryTemplate` aggregates one or more
top-level root expressions of one generated test query. -/
structure QueryTemplate where
  roots : List Expression

/-- Translated from `matches_x_or_y` in the source. -/
def matches_x_or_y (expression : Expression)
    (x : Expression → Bool) (y : Expression → Bool) : Bool :=
  x expression || y expression

/-- Translated from `matches_x_and_y` in the source. -/
def matches_x_and_y (expression : Expression)
    (x : Expression → Bool) (y : Expression → Bool) : Bool :=
  x expression && y expression

/-- Translated from `matches_fun_by_name` in the source: the two
`isinstance` checks (`ExpressionWithArgs`, `DbFunction`) become a match on
the composite variant holding the function variant of `Operation`; every
other shape falls through to `false`. -/
def matches_fun_by_name (expression : Expression)
    (function_name_in_lower_case : String) : Bool :=
  match expression with
  | .withArgs (.DbFunction n) _ => n == function_name_in_lower_case
  | _ => false

/-- Translated from `matches_op_by_pattern` in the source. -/
def matches_op_by_pattern (expression : Expression) (pattern : String) : Bool :=
  match expression with
  | .withArgs (.DbOperation p) _ => p == pattern
  | _ => false

/-- Translated from `matches_expression_with_only_plain_arguments` in the
source: on a composite, the `for` loop that returns `False` at the first
non-leaf argument and the trailing `return True` amount to `List.all` of
`is_leaf` over the immediate arguments; a leaf skips the loop and returns
`True`. -/
def matches_expression_with_only_plain_arguments (expression : Expression) : Bool :=
  match expression with
  | .withArgs _ args => args.all (fun arg => arg.is_leaf)
  | .leaf _ => true

/-- Translated from `matches_nested_expression` in the source. -/
def matches_nested_expression (expression : Expression) : Bool :=
  !matches_expression_with_only_plain_arguments expression

mutual

/-- Modelled from the spec: the recursive part of the Query collaborator's
`matches_any_expression` traversal — evaluates the predicate on a node and,
descending into nested arguments, on every transitively reachable
sub-expression, true on first match. -/
def matchesAnyRec (p : Expression → Bool) : Expression → Bool
  | .leaf payload => p (.leaf payload)
  | .withArgs op args => p (.withArgs op args) || matchesAnyList p args

/-- Modelled from the spec: the traversal's descent over an argument list —
true when some expression reachable from some list element matches. -/
def matchesAnyList (p : Expression → Bool) : List Expression → Bool
  | [] => false
  | a :: as => matchesAnyRec p a || matchesAnyList p as

end

/-- Modelled from the spec: `QueryTemplate.matches_any_expression
(predicate, traverse_nested)` evaluates the predicate over every expression
reachable from the query's roots; when `traverse_nested` is true it descends
into every argument transitively, otherwise it visits only the roots; it
returns true on first match and false if none match (including the
empty-query case).  This Query capability is absent from the source
fragment. -/
def QueryTemplate.matches_any_expression (q : QueryTemplate)
    (p : Expression → Bool) (traverse_nested : Bool) : Bool :=
  if traverse_nested then
    q.roots.any (fun r => matchesAnyRec p r)
  else
    q.roots.any p

/-- Translated from `is_function_invoked_only_with_non_nested_parameters` in
the source: build the AND of the named-function matcher and the
nested-expression matcher (the `partial` applications become lambdas), ask
the query whether any reachable expression satisfies it (with
`traverse_nested = true`), and return the negation. -/
def is_function_invoked_only_with_non_nested_parameters
    (query_template : QueryTemplate) (function_name_in_lowercase : String) : Bool :=
  let at_least_one_invocation_with_nested_args :=
    query_template.matches_any_expression
      (fun expression =>
        matches_x_and_y expression
          (fun e => matches_fun_by_name e function_name_in_lowercase)
          matches_nested_expression)
      true
  !at_least_one_invocation_with_nested_args

/-- Reachability in an expression tree: `Reachable r e` holds when `e` is
`r` itself or (recursively) lies inside one of the arguments of a composite
`r`.  This is the spec's notion of "every Expression reachable from the
query's roots, traversing into nested arguments". -/
inductive Reachable : Expression → Expression → Prop where
  | refl (e : Expression) : Reachable e e
  | arg {op : Operation} {args : List Expression} {a e : Expression} :
      a ∈ args → Reachable a e → Reachable (.withArgs op args) e

mutual

/-- Depth-fuelled variant of the reachability traversal: `none` when the
fuel runs out before the recursion bottoms out.  Used to express that the
real traversal's recursion depth is bounded by the tree size. -/
def matchesAnyFuel : Nat → (Expression → Bool) → Expression → Option Bool
  | 0, _, _ => none
  | f + 1, p, .leaf payload => some (p (.leaf payload))
  | f + 1, p, .withArgs op args =>
      (matchesAnyFuelList f p args).map
        (fun b => p (.withArgs op args) || b)
termination_by f _ _ => (f, 0)

/-- Depth-fuelled variant of the traversal's descent over an argument
list. -/
def matchesAnyFuelList : Nat → (Expression → Bool) → List Expression → Option Bool
  | _, _, [] => some false
  | f, p, a :: as => do
      let b ← matchesAnyFuel f p a
      let bs ← matchesAnyFuelList f p as
      pure (b || bs)
termination_by f _ l => (f, l.length + 1)

end

/-- Depth-fuelled variant of the aggregator
`is_function_invoked_only_with_non_nested_parameters`: `none` when the fuel
runs out during the traversal. -/
def is_function_invoked_fuel (f : Nat) (query_template : QueryTemplate)
    (function_name_in_lowercase : String) : Option Bool :=
  (matchesAnyFuelList f
      (fun expression =>
        matches_x_and_y expression
          (fun e => matches_fun_by_name e function_name_in_lowercase)
          matches_nested_expression)
      query_template.roots).map (fun b => !b)

/-- Well-founded induction principle for `Expression` giving the inductive
hypothesis on every member of a composite's argument list. -/
theorem Expression.rec_mem {motive : Expression → Prop}
    (hleaf : ∀ n, motive (.leaf n))
    (hargs : ∀ op args, (∀ a ∈ args, motive a) → motive (.withArgs op args)) :
    ∀ e, motive e
  | .leaf n => hleaf n
  | .withArgs op args =>
      hargs op args (fun a ha => Expression.rec_mem hleaf hargs a)
termination_by e => sizeOf e
decreasing_by
  simp only [Expression.withArgs.sizeOf_spec]
  have := List.sizeOf_lt_of_mem ha
  omega

theorem reachable_leaf {n : Nat} {e : Expression}
    (h : Reachable (.leaf n) e) : e = .leaf n := by
  cases h with
  | refl => rfl

theorem reachable_withArgs_iff {op : Operation} {args : List Expression}
    {e : Expression} :
    Reachable (.withArgs op args) e ↔
      e = .withArgs op args ∨ ∃ a ∈ args, Reachable a e := by
  constructor
  · intro h
    cases h with
    | refl => exact Or.inl rfl
    | arg ha hr => exact Or.inr ⟨_, ha, hr⟩
  · rintro (rfl | ⟨a, ha, hr⟩)
    · exact .refl _
    · exact .arg ha hr

theorem matchesAnyList_eq_any (p : Expression → Bool) (l : List Expression) :
    matchesAnyList p l = l.any (fun a => matchesAnyRec p a) := by
  induction l with
  | nil => rfl
  | cons a as ih => simp [matchesAnyList, ih]

theorem matchesAnyRec_iff_reachable (p : Expression → Bool) :
    ∀ r, (matchesAnyRec p r = true ↔ ∃ e, Reachable r e ∧ p e = true) := by
  intro r
  induction r using Expression.rec_mem with
  | hleaf n =>
    simp only [matchesAnyRec]
    constructor
    · intro h
      exact ⟨.leaf n, .refl _, h⟩
    · rintro ⟨e, hre, hpe⟩
      rw [reachable_leaf hre] at hpe
      exact hpe
  | hargs op args ih =>
    rw [matchesAnyRec, matchesAnyList_eq_any]
    constructor
    · intro h
      rcases Bool.or_eq_true_iff.mp h with hp | hany
      · exact ⟨.withArgs op args, .refl _, hp⟩
      · rcases List.any_eq_true.mp hany with ⟨a, ha, hrec⟩
        rcases (ih a ha).mp hrec with ⟨e, hre, hpe⟩
        exact ⟨e, .arg ha hre, hpe⟩
    · rintro ⟨e, hre, hpe⟩
      rcases reachable_withArgs_iff.mp hre with rfl | ⟨a, ha, hr⟩
      · exact Bool.or_eq_true_iff.mpr (Or.inl hpe)
      · exact Bool.or_eq_true_iff.mpr
          (Or.inr (List.any_eq_true.mpr ⟨a, ha, (ih a ha).mpr ⟨e, hr, hpe⟩⟩))

/-- Shared characterisation of the aggregator: it returns `true` exactly
when no expression reachable from any root is an invocation of the named
function with a nested argument. -/
theorem is_function_invoked_iff (q : QueryTemplate) (name : String) :
    is_function_invoked_only_with_non_nested_parameters q name = true ↔
      ¬ ∃ r ∈ q.roots, ∃ e, Reachable r e ∧
          matches_fun_by_name e name = true ∧
          matches_nested_expression e = true := by
  have key :
      (q.roots.any (fun r =>
          matchesAnyRec
            (fun expression =>
              matches_x_and_y expression
                (fun e => matches_fun_by_name e name)
                matches_nested_expression) r) = true) ↔
        ∃ r ∈ q.roots, ∃ e, Reachable r e ∧
          matches_fun_by_name e name = true ∧
          matches_nested_expression e = true := by
    rw [List.any_eq_true]
    constructor
    · rintro ⟨r, hr, hrec⟩
      rcases (matchesAnyRec_iff_reachable _ r).mp hrec with ⟨e, hre, hpe⟩
      rw [matches_x_and_y, Bool.and_eq_true] at hpe
      exact ⟨r, hr, e, hre, hpe⟩
    · rintro ⟨r, hr, e, hre, h1, h2⟩
      refine ⟨r, hr, (matchesAnyRec_iff_reachable _ r).mpr ⟨e, hre, ?_⟩⟩
      rw [matches_x_and_y, Bool.and_eq_true]
      exact ⟨h1, h2⟩
  have hdef : is_function_invoked_only_with_non_nested_parameters q name
      = !(q.roots.any (fun r =>
          matchesAnyRec
            (fun expression =>
              matches_x_and_y expression
                (fun e => matches_fun_by_name e name)
                matches_nested_expression) r)) := rfl
  rw [hdef, Bool.not_eq_true', Bool.eq_false_iff]
  exact not_congr key

theorem matchesAnyFuelList_eq_of (p : Expression → Bool) :
    ∀ (l : List Expression),
      (∀ a ∈ l, ∀ f, sizeOf a ≤ f →
        matchesAnyFuel f p a = some (matchesAnyRec p a)) →
      ∀ f, sizeOf l ≤ f →
        matchesAnyFuelList f p l = some (matchesAnyList p l) := by
  intro l
  induction l with
  | nil =>
    intro _ f _
    simp [matchesAnyFuelList, matchesAnyList]
  | cons a as ih =>
    intro hmem f hf
    have hsz : sizeOf a ≤ f ∧ sizeOf as ≤ f := by
      simp only [List.cons.sizeOf_spec] at hf
      omega
    simp only [matchesAnyFuelList]
    rw [hmem a (List.mem_cons_self a as) f hsz.1]
    rw [ih (fun b hb f2 h2 => hmem b (List.mem_cons_of_mem a hb) f2 h2) f hsz.2]
    simp [matchesAnyList]

theorem matchesAnyFuel_eq (p : Expression → Bool) :
    ∀ e f, sizeOf e ≤ f → matchesAnyFuel f p e = some (matchesAnyRec p e) := by
  intro e
  induction e using Expression.rec_mem with
  | hleaf n =>
    intro f hf
    cases f with
    | zero =>
      exfalso
      simp only [Expression.leaf.sizeOf_spec] at hf
      omega
    | succ f => simp [matchesAnyFuel, matchesAnyRec]
  | hargs op args ih =>
    intro f hf
    cases f with
    | zero =>
      exfalso
      simp only [Expression.withArgs.sizeOf_spec] at hf
      omega
    | succ f =>
      have hargs_le : sizeOf args ≤ f := by
        simp only [Expression.withArgs.sizeOf_spec] at hf
        have hop : 1 ≤ sizeOf op := by
          cases op <;> simp
        omega
      simp only [matchesAnyFuel]
      rw [matchesAnyFuelList_eq_of p args ih f hargs_le]
      simp [matchesAnyRec]

theorem is_function_invoked_fuel_eq (q : QueryTemplate) (name : String) :
    ∀ f, sizeOf q.roots ≤ f →
      is_function_invoked_fuel f q name =
        some (is_function_invoked_only_with_non_nested_parameters q name) := by
  intro f hf
  unfold is_function_invoked_fuel
  rw [matchesAnyFuelList_eq_of _ _ (fun a _ => matchesAnyFuel_eq _ a) f hf]
  simp only [Option.map_some']
  rw [matchesAnyList_eq_any]
  rfl

/-- C1: `is_function_invoked_only_with_non_nested_parameters(query, name)`
returns the negation of "some expression reachable from the query's roots
(traversing into nested arguments) satisfies both
`matches_fun_by_name(·, name)` and `matches_nested_expression(·)`": it is
true iff no invocation of the named function anywhere in the query has a
nested (non-leaf) immediate argument, and false iff such an invocation
exists. -/
theorem aggregator_negation_spec (q : QueryTemplate) (name : String) :
    (is_function_invoked_only_with_non_nested_parameters q name = true ↔
      ¬ ∃ r ∈ q.roots, ∃ e, Reachable r e ∧
          matches_fun_by_name e name = true ∧
          matches_nested_expression e = true) ∧
    (is_function_invoked_only_with_non_nested_parameters q name = false ↔
      ∃ r ∈ q.roots, ∃ e, Reachable r e ∧
          matches_fun_by_name e name = true ∧
          matches_nested_expression e = true) := by
  have h := is_function_invoked_iff q name
  refine ⟨h, ?_⟩
  rw [Bool.eq_false_iff]
  constructor
  · intro hne
    by_contra hnp
    exact hne (h.mpr hnp)
  · intro hp hres
    exact (h.mp hres) hp

/-- C2: when the named function occurs in no expression reachable from the
query's roots, `is_function_invoked_only_with_non_nested_parameters`
returns true (vacuous truth). -/
theorem aggregator_vacuous_truth (q : QueryTemplate) (name : String)
    (h : ∀ r ∈ q.roots, ∀ e, Reachable r e →
      matches_fun_by_name e name = false) :
    is_function_invoked_only_with_non_nested_parameters q name = true := by
  rw [is_function_invoked_iff]
  rintro ⟨r, hr, e, hre, h1, _⟩
  rw [h r hr e hre] at h1
  exact Bool.false_ne_true h1

/-- Witness for C2: a query whose only call is to `"abs"` contains no call
to `"round"`, and the aggregator returns true on it. -/
theorem aggregator_vacuous_truth_witness :
    is_function_invoked_only_with_non_nested_parameters
      ⟨[Expression.withArgs (Operation.DbFunction "abs") [Expression.leaf 0]]⟩
      "round" = true := by
  apply aggregator_vacuous_truth
  intro r hr e he
  simp only [List.mem_singleton] at hr
  subst hr
  rcases reachable_withArgs_iff.mp he with rfl | ⟨a, ha, hr2⟩
  · rfl
  · simp only [List.mem_singleton] at ha
    subst ha
    rw [reachable_leaf hr2]
    rfl

/-- C3: `matches_fun_by_name(n, name)` is true iff `n` is a composite whose
operation is the function variant with stored lower-case name string-equal
to `name`; it is false for every leaf, every operator-composite, and every
differing name (including a mixed-case `name` differing from the stored
lower-case form). -/
theorem matches_fun_by_name_spec (e : Expression) (name : String) :
    matches_fun_by_name e name = true ↔
      ∃ fn args,
        e = Expression.withArgs (Operation.DbFunction fn) args ∧ fn = name := by
  cases e with
  | leaf n => simp [matches_fun_by_name]
  | withArgs op args =>
    cases op with
    | DbFunction fn =>
      simp only [matches_fun_by_name, beq_iff_eq,
        Expression.withArgs.injEq, Operation.DbFunction.injEq]
      constructor
      · intro h
        exact ⟨fn, args, ⟨rfl, rfl⟩, h⟩
      · rintro ⟨fn2, args2, ⟨h1, h2⟩, h3⟩
        rw [h1, h3]
    | DbOperation p => simp [matches_fun_by_name]

/-- C7: `matches_op_by_pattern(n, pattern)` is true iff `n` is a composite
whose operation is the operator variant with pattern string exactly equal
to `pattern`; it is false in every other case, including leaves and
function-composites. -/
theorem matches_op_by_pattern_spec (e : Expression) (pattern : String) :
    matches_op_by_pattern e pattern = true ↔
      ∃ p args,
        e = Expression.withArgs (Operation.DbOperation p) args ∧ p = pattern := by
  cases e with
  | leaf n => simp [matches_op_by_pattern]
  | withArgs op args =>
    cases op with
    | DbFunction fn => simp [matches_op_by_pattern]
    | DbOperation p =>
      simp only [matches_op_by_pattern, beq_iff_eq,
        Expression.withArgs.injEq, Operation.DbOperation.injEq]
      constructor
      · intro h
        exact ⟨p, args, ⟨rfl, rfl⟩, h⟩
      · rintro ⟨p2, args2, ⟨h1, h2⟩, h3⟩
        rw [h1, h3]

/-- C4: `matches_expression_with_only_plain_arguments(n)` is true when `n`
is a leaf, and on a composite it is true iff every immediate argument is a
leaf; moreover the check is shallow — its value on a composite depends only
on the leaf/composite kind of the immediate arguments, never on
grandchildren. -/
theorem plain_arguments_spec (e : Expression) :
    (matches_expression_with_only_plain_arguments e = true ↔
      (e.is_leaf = true ∨
        ∃ op args, e = Expression.withArgs op args ∧
          ∀ a ∈ args, a.is_leaf = true)) ∧
    (∀ op op2 args args2,
        args.map Expression.is_leaf = args2.map Expression.is_leaf →
        matches_expression_with_only_plain_arguments
            (Expression.withArgs op args) =
          matches_expression_with_only_plain_arguments
            (Expression.withArgs op2 args2)) := by
  constructor
  · cases e with
    | leaf n => simp [matches_expression_with_only_plain_arguments, Expression.is_leaf]
    | withArgs op args =>
      simp only [matches_expression_with_only_plain_arguments,
        List.all_eq_true, Expression.is_leaf, Expression.withArgs.injEq]
      constructor
      · intro h
        exact Or.inr ⟨op, args, ⟨rfl, rfl⟩, h⟩
      · rintro (hfalse | ⟨op2, args2, ⟨h1, h2⟩, h⟩)
        · exact absurd hfalse (by simp)
        · subst h2
          exact h
  · intro op op2 args args2 hmap
    simp only [matches_expression_with_only_plain_arguments]
    have h1 : ∀ (l : List Expression),
        l.all (fun arg => arg.is_leaf) = (l.map Expression.is_leaf).all id := by
      intro l
      induction l with
      | nil => rfl
      | cons a as ih => simp [ih]
    rw [h1 args, h1 args2, hmap]

/-- C5: `matches_nested_expression(n)` equals the Boolean negation of
`matches_expression_with_only_plain_arguments(n)`; equivalently it is true
iff `n` is a composite with at least one composite immediate argument, and
it is false on every leaf. -/
theorem nested_expression_spec (e : Expression) :
    (matches_nested_expression e =
      (!matches_expression_with_only_plain_arguments e)) ∧
    (matches_nested_expression e = true ↔
      ∃ op args, e = Expression.withArgs op args ∧
        ∃ a ∈ args, a.is_leaf = false) ∧
    (∀ n, matches_nested_expression (Expression.leaf n) = false) := by
  refine ⟨rfl, ?_, fun n => rfl⟩
  cases e with
  | leaf n =>
    simp [matches_nested_expression, matches_expression_with_only_plain_arguments]
  | withArgs op args =>
    simp only [matches_nested_expression,
      matches_expression_with_only_plain_arguments, Bool.not_eq_true',
      List.all_eq_false, Expression.withArgs.injEq]
    constructor
    · rintro ⟨a, ha, hna⟩
      exact ⟨op, args, ⟨rfl, rfl⟩, a, ha, by
        cases h2 : a.is_leaf
        · rfl
        · exact absurd h2 hna⟩
    · rintro ⟨op2, args2, ⟨h1, h2⟩, a, ha, hna⟩
      subst h2
      exact ⟨a, ha, by rw [hna]; exact Bool.false_ne_true⟩

/-- C6: the combinators compute exactly the pointwise conjunction and
disjunction of their two matcher arguments: `matches_x_and_y(n, x, y) =
x(n) && y(n)` and `matches_x_or_y(n, x, y) = x(n) || y(n)` for every node
and every pair of Boolean matchers. -/
theorem combinators_truth_table (e : Expression)
    (x y : Expression → Bool) :
    matches_x_and_y e x y = (x e && y e) ∧
    matches_x_or_y e x y = (x e || y e) :=
  ⟨rfl, rfl⟩

/-- C8: every matcher is total over well-formed inputs: on any expression
(leaf or composite) with any operation variant it yields a Boolean value,
and a variant mismatch (leaf where a composite is needed, operator where a
function is needed, or vice versa) always yields `false` rather than a
fault. -/
theorem matchers_total_spec :
    (∀ e name, matches_fun_by_name e name = true ∨
      matches_fun_by_name e name = false) ∧
    (∀ e pat, matches_op_by_pattern e pat = true ∨
      matches_op_by_pattern e pat = false) ∧
    (∀ e, matches_expression_with_only_plain_arguments e = true ∨
      matches_expression_with_only_plain_arguments e = false) ∧
    (∀ e, matches_nested_expression e = true ∨
      matches_nested_expression e = false) ∧
    (∀ n name, matches_fun_by_name (Expression.leaf n) name = false) ∧
    (∀ n pat, matches_op_by_pattern (Expression.leaf n) pat = false) ∧
    (∀ p args name,
      matches_fun_by_name
        (Expression.withArgs (Operation.DbOperation p) args) name = false) ∧
    (∀ fn args pat,
      matches_op_by_pattern
        (Expression.withArgs (Operation.DbFunction fn) args) pat = false) := by
  refine ⟨?_, ?_, ?_, ?_, fun n name => rfl, fun n pat => rfl,
    fun p args name => rfl, fun fn args pat => rfl⟩
  · exact fun e name => Bool.eq_false_or_eq_true _
  · exact fun e pat => Bool.eq_false_or_eq_true _
  · exact fun e => Bool.eq_false_or_eq_true _
  · exact fun e => Bool.eq_false_or_eq_true _

/-- C9: the traversal and the query-wide aggregator terminate on every
finite expression tree: a depth-fuelled evaluator with fuel at least the
tree size (resp. the size of the query's root list) never runs out of fuel
and returns exactly the value of the total functions. -/
theorem traversal_terminates_spec (p : Expression → Bool) (e : Expression)
    (q : QueryTemplate) (name : String) (f : Nat)
    (h1 : sizeOf e ≤ f) (h2 : sizeOf q.roots ≤ f) :
    matchesAnyFuel f p e = some (matchesAnyRec p e) ∧
    is_function_invoked_fuel f q name =
      some (is_function_invoked_only_with_non_nested_parameters q name) :=
  ⟨matchesAnyFuel_eq p e f h1, is_function_invoked_fuel_eq q name f h2⟩

/-- Witness for C9: on a concrete nested tree and query, fuel 1000 suffices
and the fuelled evaluators agree with the total ones. -/
theorem traversal_terminates_witness :
    matchesAnyFuel 1000 Expression.is_leaf
        (Expression.withArgs (Operation.DbFunction "round")
          [Expression.withArgs (Operation.DbFunction "abs") [Expression.leaf 0]]) =
      some (matchesAnyRec Expression.is_leaf
        (Expression.withArgs (Operation.DbFunction "round")
          [Expression.withArgs (Operation.DbFunction "abs") [Expression.leaf 0]])) ∧
    is_function_invoked_fuel 1000
        ⟨[Expression.withArgs (Operation.DbFunction "round")
          [Expression.withArgs (Operation.DbFunction "abs") [Expression.leaf 0]]]⟩
        "round" =
      some (is_function_invoked_only_with_non_nested_parameters
        ⟨[Expression.withArgs (Operation.DbFunction "round")
          [Expression.withArgs (Operation.DbFunction "abs") [Expression.leaf 0]]]⟩
        "round") :=
  traversal_terminates_spec Expression.is_leaf _ _ "round" 1000
    (by decide) (by decide)

/-- C10: a composite node with an empty argument list has only plain
arguments (vacuously), is not a nested expression, and never satisfies the
aggregator's compound named-function-with-nested-arguments matcher. -/
theorem empty_args_spec (op : Operation) (name : String) :
    matches_expression_with_only_plain_arguments
        (Expression.withArgs op []) = true ∧
    matches_nested_expression (Expression.withArgs op []) = false ∧
    matches_x_and_y (Expression.withArgs op [])
        (fun e => matches_fun_by_name e name)
        matches_nested_expression = false := by
  refine ⟨rfl, rfl, ?_⟩
  simp [matches_x_and_y, matches_nested_expression,
    matches_expression_with_only_plain_arguments]
